import Mathlib

/-!
Verification of the decision core of a git porcelain tool: the push
negotiation guard, the rebase sequencer reader, the status classifier and
the divergence (ahead/behind) computation.  Each definition is a shallow
embedding of the corresponding Rust function; the theorems settle the
specification's claims against those embeddings.
-/

namespace Src

/-- Object ids are 20-byte content hashes; we model an oid by its numeric
value (40 hex nibbles).  The null/zero oid (`Oid::is_zero`, all bytes zero)
is exactly the value `0`. -/
abbrev Oid := Nat

/-- One advertised ref update handed to the push-negotiation callback
(`git2::PushUpdate`, mirrored by `Update` in `src/git/remote.rs`). -/
structure Update where
  src : Oid
  dst : Oid
  refname : String
deriving DecidableEq

/-- Embedding of the `push_negotiation` callback installed by
`RemoteOpts::callbacks` (src/git/remote.rs lines 211-225): when a `compare`
oid is present, the push is rejected unless some advertised update has
`src == compare` or every advertised `src` is the zero oid. -/
def pushNegotiation (compare : Option Oid) (updates : List Update) : Except String Unit :=
  match compare with
  | none => Except.ok ()
  | some oid =>
    if !(updates.any (fun upd => upd.src == oid)) && !(updates.all (fun upd => upd.src == 0)) then
      Except.error "update rejected (outdated)"
    else
      Except.ok ()

/-- C1: with an expected oid `x` supplied, the guard rejects exactly when no
advertised update has `src = x` and not every advertised `src` is the zero
oid; in particular an update list `[(x, y, r)]` passes and `[(z, y, r)]`
with `z ≠ x`, `z` nonzero is rejected. -/
theorem push_guard_rejected_iff : ∀ (x : Oid) (us : List Update),
    (pushNegotiation (some x) us = Except.error "update rejected (outdated)" ↔
      (∀ u ∈ us, u.src ≠ x) ∧ ∃ u ∈ us, u.src ≠ 0) ∧
    (∀ y r, pushNegotiation (some x) [⟨x, y, r⟩] = Except.ok ()) ∧
    (∀ z y r, z ≠ x → z ≠ 0 →
      pushNegotiation (some x) [⟨z, y, r⟩] = Except.error "update rejected (outdated)") := by
  intro x us
  refine ⟨?_, ?_, ?_⟩
  · simp only [pushNegotiation]
    split
    · rename_i hcond
      simp only [Bool.and_eq_true, Bool.not_eq_true', List.any_eq_false, List.all_eq_false,
        beq_iff_eq, bne_iff_ne] at hcond
      simp only [true_iff]
      obtain ⟨h1, h2⟩ := hcond
      obtain ⟨u, hu, hne⟩ := h2
      exact ⟨h1, u, hu, by simpa using hne⟩
    · rename_i hcond
      simp only [Bool.and_eq_true, Bool.not_eq_true', List.any_eq_false, List.all_eq_false,
        beq_iff_eq] at hcond
      constructor
      · intro h; exact absurd h (by simp)
      · rintro ⟨h1, u, hu, hne⟩
        exact absurd ⟨h1, u, hu, by simpa using hne⟩ hcond
  · intro y r
    simp [pushNegotiation]
  · intro z y r hzx hz0
    simp [pushNegotiation, hzx, hz0]

/-- Witness for `push_guard_rejected_iff` at concrete oids. -/
theorem push_guard_rejected_iff_witness :
    pushNegotiation (some 1) [⟨2, 3, "refs/heads/main"⟩] =
      Except.error "update rejected (outdated)" :=
  (push_guard_rejected_iff 1 [⟨2, 3, "refs/heads/main"⟩]).2.2 2 3 "refs/heads/main"
    (by decide) (by decide)

/-- Decidable equality for `Except`, used to evaluate results on concrete
inputs. -/
instance {ε α : Type} [DecidableEq ε] [DecidableEq α] : DecidableEq (Except ε α) := fun x y =>
  match x, y with
  | Except.error a, Except.error b =>
    if h : a = b then isTrue (by rw [h])
    else isFalse (by intro hh; cases hh; exact h rfl)
  | Except.error _, Except.ok _ => isFalse (by intro hh; cases hh)
  | Except.ok _, Except.error _ => isFalse (by intro hh; cases hh)
  | Except.ok a, Except.ok b =>
    if h : a = b then isTrue (by rw [h])
    else isFalse (by intro hh; cases hh; exact h rfl)

/-- Boolean success test on `Except` results. -/
def exceptIsOk {ε α : Type} : Except ε α → Bool
  | Except.ok _ => true
  | Except.error _ => false

/-- Splits a character list at the first space, returning the piece before
it and, when a space was found, the remainder after it. -/
def breakSpace : List Char → List Char × Option (List Char)
  | [] => ([], none)
  | c :: cs =>
    if c == ' ' then ([], some cs)
    else
      let r := breakSpace cs
      (c :: r.1, r.2)

/-- Embedding of Rust `str::splitn(n, ' ')`: at most `n` pieces, the last
piece absorbing the rest of the input verbatim (embedded spaces included). -/
def splitnSpace : Nat → List Char → List (List Char)
  | 0, _ => []
  | 1, cs => [cs]
  | n + 2, cs =>
    match breakSpace cs with
    | (pre, none) => [pre]
    | (pre, some post) => pre :: splitnSpace (n + 1) post

/-- Value of a single hex digit, or `none` for a non-hex character. -/
def hexNibble (c : Char) : Option Nat :=
  if ('0' ≤ c) ∧ (c ≤ '9') then some (c.toNat - '0'.toNat)
  else if ('a' ≤ c) ∧ (c ≤ 'f') then some (c.toNat - 'a'.toNat + 10)
  else if ('A' ≤ c) ∧ (c ≤ 'F') then some (c.toNat - 'A'.toNat + 10)
  else none

/-- Accumulating hex parser: fails on the first non-hex character. -/
def hexValueAux : List Char → Nat → Option Nat
  | [], acc => some acc
  | c :: cs, acc =>
    match hexNibble c with
    | none => none
    | some v => hexValueAux cs (acc * 16 + v)

/-- Embedding of `git2::Oid::from_str` (libgit2 `git_oid_fromstrn`): up to
40 hex digits setting the leading nibbles of the oid, the remaining
nibbles being zero.  An empty string fails ("too short"), a length above 40
fails ("too long"), and any non-hex character fails. -/
def oidFromStr (cs : List Char) : Option Oid :=
  if cs.length = 0 then none
  else if cs.length > 40 then none
  else
    match hexValueAux cs 0 with
    | none => none
    | some v => some (v * 16 ^ (40 - cs.length))

/-- Operation kinds of the rebase sequencer
(`git2::RebaseOperationType`). -/
inductive RebaseOperationType where
  | pick
  | reword
  | edit
  | squash
  | fixup
  | exec
deriving DecidableEq

/-- Errors of the sequencer reader (`RebaseError` in src/git/rebase.rs):
`parse` for a malformed line or verb, `git` for an object-id parse failure
(the wrapped `git2::Error`). -/
inductive RebaseErr where
  | parse (msg : String)
  | git
deriving DecidableEq

/-- One parsed sequencer operation (`RebaseOp` in src/git/rebase.rs). -/
structure RebaseOp where
  oid : Oid
  ty : RebaseOperationType
  message : String
deriving DecidableEq

/-- Verb table of `RebaseOp::from_str`: single-letter or full-word alias. -/
def verbType (verb : List Char) : Option RebaseOperationType :=
  if verb = "p".data ∨ verb = "pick".data then some RebaseOperationType.pick
  else if verb = "r".data ∨ verb = "reword".data then some RebaseOperationType.reword
  else if verb = "e".data ∨ verb = "edit".data then some RebaseOperationType.edit
  else if verb = "s".data ∨ verb = "squash".data then some RebaseOperationType.squash
  else if verb = "f".data ∨ verb = "fixup".data then some RebaseOperationType.fixup
  else if verb = "x".data ∨ verb = "exec".data then some RebaseOperationType.exec
  else none

/-- Embedding of `RebaseOp::from_str` (src/git/rebase.rs lines 24-53): the
line is split into at most three space-separated components, of which
exactly three must be present; the first is the verb, the second is parsed
as a commit id on every line (the `exec` verb included), the third is the
message. -/
def RebaseOp.fromStr (s : List Char) : Except RebaseErr RebaseOp :=
  match splitnSpace 3 s with
  | [verb, oidStr, msg] =>
    match verbType verb with
    | none => Except.error (RebaseErr.parse "invalid rebase operation type")
    | some ty =>
      match oidFromStr oidStr with
      | none => Except.error RebaseErr.git
      | some oid => Except.ok ⟨oid, ty, String.mk msg⟩
  | _ => Except.error (RebaseErr.parse "invalid rebase todo: expected 3 components")

/-- Splits a character list on newline characters. -/
def splitNl : List Char → List (List Char)
  | [] => [[]]
  | c :: cs =>
    if c == '\n' then [] :: splitNl cs
    else
      match splitNl cs with
      | ys :: rest => (c :: ys) :: rest
      | [] => [[c]]

/-- Drops one trailing carriage return from a line that ended in a
newline, as Rust `str::lines` does for `\r\n` endings. -/
def stripCr (l : List Char) : List Char :=
  if l.getLast? == some '\r' then l.dropLast else l

/-- Embedding of Rust `str::lines`: split on newlines with the final line
ending optional; a carriage return is removed only when it preceded a
newline, so a bare trailing `\r` on the final unterminated line is kept. -/
def linesOf (cs : List Char) : List (List Char) :=
  let ps := splitNl cs
  let terminated := ps.dropLast.map stripCr
  match ps.getLast? with
  | some [] => terminated
  | some lastPiece => terminated ++ [lastPiece]
  | none => terminated

/-- Line filter of `Rebase::from_path`: empty lines, comment lines starting
with '#' and indented lines starting with a space are skipped. -/
def keepLine : List Char → Bool
  | [] => false
  | c :: _ => !(c == '#') && !(c == ' ')

/-- The operation lines of a sequencer file: the lines surviving the filter
in `Rebase::from_path`. -/
def keptLines (content : List Char) : List (List Char) :=
  (linesOf content).filter keepLine

/-- Embedding of `.map(RebaseOp::from_str).collect::<Result<Vec<_>, _>>()`:
parse each line in order, aborting with the first failure. -/
def parseOps : List (List Char) → Except RebaseErr (List RebaseOp)
  | [] => Except.ok []
  | l :: ls =>
    match RebaseOp.fromStr l with
    | Except.error e => Except.error e
    | Except.ok op =>
      match parseOps ls with
      | Except.error e => Except.error e
      | Except.ok ops => Except.ok (op :: ops)

/-- Embedding of `Rebase::from_path` (src/git/rebase.rs lines 61-69) once
the file has been read to a string: filter the lines, then parse every kept
line, aborting the whole read on the first failure. -/
def rebaseFromContent (content : String) : Except RebaseErr (List RebaseOp) :=
  parseOps (keptLines content.data)

example : splitnSpace 3 "pick abc123 fix: bug".data =
    ["pick".data, "abc123".data, "fix: bug".data] := by decide

example : rebaseFromContent "p abc123 msg\nx 1 echo hi\n" =
    Except.ok [⟨0xabc123 * 16 ^ 34, RebaseOperationType.pick, "msg"⟩,
      ⟨0x1 * 16 ^ 39, RebaseOperationType.exec, "echo hi"⟩] := by decide

example : rebaseFromContent "# comment\n\n  indented\npick abc123 m\n" =
    Except.ok [⟨0xabc123 * 16 ^ 34, RebaseOperationType.pick, "m"⟩] := by decide

example : exceptIsOk (rebaseFromContent "pick abc123 fix: bug\nexec make test\n") = false := by decide

example : exceptIsOk (rebaseFromContent "pick  msg\n") = false := by decide

example : exceptIsOk (rebaseFromContent "pick abc123 m\n\r") = false := by decide

example : linesOf "a\r\nb\r".data = ["a".data, "b\r".data] := by decide

example : linesOf "a\nb\n".data = ["a".data, "b".data] := by decide

/-- Auxiliary: the collecting parser succeeds exactly when every line
parses. -/
theorem parseOps_isOk (ls : List (List Char)) :
    exceptIsOk (parseOps ls) = true ↔ ∀ l ∈ ls, exceptIsOk (RebaseOp.fromStr l) = true := by
  induction ls with
  | nil => simp [parseOps, exceptIsOk]
  | cons l ls ih =>
    cases hf : RebaseOp.fromStr l with
    | error e =>
      simp only [parseOps, hf, exceptIsOk]
      constructor
      · intro h; cases h
      · intro h
        have h2 := h l (List.mem_cons_self l ls)
        rw [hf] at h2
        cases h2
    | ok op =>
      cases hp : parseOps ls with
      | error e =>
        simp only [parseOps, hf, hp, exceptIsOk]
        rw [hp] at ih
        simp only [exceptIsOk] at ih
        constructor
        · intro h; cases h
        · intro h
          exact absurd (ih.mpr (fun x hx => h x (List.mem_cons_of_mem _ hx))) (by simp)
      | ok ops =>
        simp only [parseOps, hf, hp, exceptIsOk]
        rw [hp] at ih
        simp only [exceptIsOk] at ih
        constructor
        · intro _ l2 hl2
          rcases List.mem_cons.mp hl2 with h | h
          · subst h; rw [hf]
          · exact ih.mp trivial l2 h
        · intro _; trivial

/-- C4: the whole read succeeds exactly when every kept operation line
parses; any malformed kept line (too few components, unknown verb or
unparsable commit id) makes the whole read fail with no operation list,
while the skipped lines (empty, starting with '#' or a space) are not
parsed at all. -/
theorem sequencer_read_aborts_iff : ∀ content : String,
    exceptIsOk (rebaseFromContent content) = true ↔
      ∀ l ∈ keptLines content.data, exceptIsOk (RebaseOp.fromStr l) = true := by
  intro content
  exact parseOps_isOk (keptLines content.data)

/-- Witness for `sequencer_read_aborts_iff` on a file mixing kept and
skipped lines. -/
theorem sequencer_read_aborts_iff_witness :
    exceptIsOk (rebaseFromContent "# c\n\npick abc123 fix: bug\n") = true :=
  (sequencer_read_aborts_iff "# c\n\npick abc123 fix: bug\n").mpr (by decide)

/-- C2 (code behavior at the spec's example input): on the file content
"pick abc123 fix: bug\nexec make test\n" the read fails with an object-id
parse error, because `RebaseOp::from_str` parses the second component of
the `exec` line ("make") as a commit id; the first line alone parses to a
`pick` of oid `abc123` (zero-extended) with message "fix: bug". -/
theorem sequencer_exec_line_fails :
    rebaseFromContent "pick abc123 fix: bug\nexec make test\n" = Except.error RebaseErr.git ∧
    RebaseOp.fromStr "pick abc123 fix: bug".data =
      Except.ok ⟨0xabc123 * 16 ^ 34, RebaseOperationType.pick, "fix: bug"⟩ ∧
    RebaseOp.fromStr "exec make test".data = Except.error RebaseErr.git := by
  refine ⟨by decide, by decide, by decide⟩

/-- Raw status flags of one entry, mirroring the `git2::Status` bitflags
tested by `Entry::status` and `Status::entries` (src/git/status.rs). -/
structure StatusFlags where
  indexNew : Bool
  indexModified : Bool
  indexDeleted : Bool
  indexRenamed : Bool
  indexTypechange : Bool
  wtNew : Bool
  wtModified : Bool
  wtDeleted : Bool
  wtRenamed : Bool
  wtTypechange : Bool
  ignored : Bool
  conflicted : Bool
deriving DecidableEq

/-- The empty flag set, `git2::Status::CURRENT`. -/
def currentFlags : StatusFlags :=
  ⟨false, false, false, false, false, false, false, false, false, false, false, false⟩

/-- Change kinds (`Change` in src/git/status.rs; the source's `Type`
variant is rendered `typeChange` because `Type` is reserved in Lean). -/
inductive Change where
  | new
  | typeChange
  | modified
  | renamed
  | deleted
deriving DecidableEq

/-- Classified status of one entry (`EntryStatus` in src/git/status.rs). -/
inductive EntryStatus where
  | unknown
  | workTree (c : Change)
  | index (c : Change)
deriving DecidableEq

/-- Embedding of `Entry::status` (src/git/status.rs lines 45-59): the match
arms are tried top to bottom, so the first flag in this fixed order
determines the classification. -/
def entryStatus (f : StatusFlags) : EntryStatus :=
  if f.wtRenamed then EntryStatus.workTree Change.renamed
  else if f.indexRenamed then EntryStatus.index Change.renamed
  else if f.wtNew then EntryStatus.workTree Change.new
  else if f.indexNew then EntryStatus.index Change.new
  else if f.wtModified then EntryStatus.workTree Change.modified
  else if f.indexModified then EntryStatus.index Change.modified
  else if f.wtDeleted then EntryStatus.workTree Change.deleted
  else if f.indexDeleted then EntryStatus.index Change.deleted
  else if f.wtTypechange then EntryStatus.workTree Change.typeChange
  else if f.indexTypechange then EntryStatus.index Change.typeChange
  else EntryStatus.unknown

/-- Projection of an `EntryStatus` to its change kind, forgetting the
staged/unstaged location. -/
def changeOf : EntryStatus → Option Change
  | EntryStatus.unknown => none
  | EntryStatus.workTree c => some c
  | EntryStatus.index c => some c

/-- Change-kind priority of the amended claim, written from its wording:
Renamed over New over Modified over Deleted over TypeChanged, regardless of
location; `none` when no classifying flag is set. -/
def claimedPriority (f : StatusFlags) : Option Change :=
  if f.wtRenamed || f.indexRenamed then some Change.renamed
  else if f.wtNew || f.indexNew then some Change.new
  else if f.wtModified || f.indexModified then some Change.modified
  else if f.wtDeleted || f.indexDeleted then some Change.deleted
  else if f.wtTypechange || f.indexTypechange then some Change.typeChange
  else none

/-- C3 counterexample: an entry flagged both new and modified in the work
tree is classified `New`, not `Modified` as the claim's priority (Renamed
over Modified over New over Deleted) would demand. -/
theorem classifier_new_over_modified :
    entryStatus ⟨false, false, false, false, false, true, true, false, false, false, false, false⟩ =
      EntryStatus.workTree Change.new ∧
    changeOf (entryStatus
      ⟨false, false, false, false, false, true, true, false, false, false, false, false⟩) ≠
      some Change.modified := by
  exact ⟨rfl, by decide⟩

/-- C3 amended: the classifier resolves multiple set flags by the priority
Renamed over New over Modified over Deleted over TypeChanged (the work-tree
flag of each kind checked before the index flag), reporting exactly one
kind. -/
theorem classifier_priority : ∀ f : StatusFlags,
    changeOf (entryStatus f) = claimedPriority f := by
  intro f
  obtain ⟨a, b, c, d, e, g, h, i, j, k, l, m⟩ := f
  cases a <;> cases b <;> cases c <;> cases d <;> cases e <;> cases g <;> cases h <;> cases i <;>
    cases j <;> cases k <;> rfl

/-- Is a UTF-8 continuation byte (0x80..0xBF). -/
def isCont (b : Nat) : Bool :=
  0x80 ≤ b && b ≤ 0xBF

/-- UTF-8 validity of a byte sequence, as checked by Rust
`std::str::from_utf8` (RFC 3629: no surrogates, no overlongs, at most
U+10FFFF). -/
def validUtf8 : List Nat → Bool
  | [] => true
  | b :: rest =>
    if b ≤ 0x7F then validUtf8 rest
    else if 0xC2 ≤ b && b ≤ 0xDF then
      match rest with
      | b1 :: r => isCont b1 && validUtf8 r
      | [] => false
    else if b == 0xE0 then
      match rest with
      | b1 :: b2 :: r => (0xA0 ≤ b1 && b1 ≤ 0xBF) && isCont b2 && validUtf8 r
      | _ => false
    else if (0xE1 ≤ b && b ≤ 0xEC) || (0xEE ≤ b && b ≤ 0xEF) then
      match rest with
      | b1 :: b2 :: r => isCont b1 && isCont b2 && validUtf8 r
      | _ => false
    else if b == 0xED then
      match rest with
      | b1 :: b2 :: r => (0x80 ≤ b1 && b1 ≤ 0x9F) && isCont b2 && validUtf8 r
      | _ => false
    else if b == 0xF0 then
      match rest with
      | b1 :: b2 :: b3 :: r => (0x90 ≤ b1 && b1 ≤ 0xBF) && isCont b2 && isCont b3 && validUtf8 r
      | _ => false
    else if 0xF1 ≤ b && b ≤ 0xF3 then
      match rest with
      | b1 :: b2 :: b3 :: r => isCont b1 && isCont b2 && isCont b3 && validUtf8 r
      | _ => false
    else if b == 0xF4 then
      match rest with
      | b1 :: b2 :: b3 :: r => (0x80 ≤ b1 && b1 ≤ 0x8F) && isCont b2 && isCont b3 && validUtf8 r
      | _ => false
    else false

example : validUtf8 [0x68, 0x69] = true := by decide
example : validUtf8 [0xC3, 0xA9] = true := by decide
example : validUtf8 [0xFF] = false := by decide
example : validUtf8 [0xC3] = false := by decide
example : validUtf8 [0xED, 0xA0, 0x80] = false := by decide

/-- One raw status entry: its path bytes and its flags
(`git2::StatusEntry`). -/
structure StatusEntryRaw where
  path : List Nat
  flags : StatusFlags
deriving DecidableEq

/-- Embedding of `Status::entries` (src/git/status.rs lines 6-11): keep the
entries whose raw status differs from `CURRENT`. -/
def statusEntries (rs : List StatusEntryRaw) : List StatusEntryRaw :=
  rs.filter (fun e => !(e.flags == currentFlags))

/-- Embedding of `Entry::path` (src/git/status.rs lines 33-35):
`std::str::from_utf8(path_bytes)`, failing on invalid UTF-8 and otherwise
returning the path unsubstituted. -/
def entryPath (e : StatusEntryRaw) : Except Unit (List Nat) :=
  if validUtf8 e.path then Except.ok e.path else Except.error ()

/-- Embedding of `.map(|p| p.path()...).collect::<Result<Vec<_>, _>>()`:
the first failing path aborts the whole collection. -/
def collectPaths : List StatusEntryRaw → Except Unit (List (List Nat))
  | [] => Except.ok []
  | e :: es =>
    match entryPath e with
    | Except.error x => Except.error x
    | Except.ok p =>
      match collectPaths es with
      | Except.error x => Except.error x
      | Except.ok ps => Except.ok (p :: ps)

/-- Embedding of the entry-path collection in `cmd::add::run`
(src/cmd/add.rs lines 35-41), the consumer of the classifier's entries. -/
def addTargets (rs : List StatusEntryRaw) : Except Unit (List (List Nat)) :=
  collectPaths (statusEntries rs)

/-- C8: collecting the classifier's entry paths succeeds exactly when every
entry's path bytes are valid UTF-8; one undecodable path fails the whole
collection, and no partial or substituted list is returned. -/
theorem classify_paths_utf8_iff : ∀ rs : List StatusEntryRaw,
    exceptIsOk (addTargets rs) = true ↔
      ∀ e ∈ statusEntries rs, validUtf8 e.path = true := by
  intro rs
  show exceptIsOk (collectPaths (statusEntries rs)) = true ↔ _
  induction statusEntries rs with
  | nil => simp [collectPaths, exceptIsOk]
  | cons e es ih =>
    cases hv : validUtf8 e.path with
    | false =>
      simp only [collectPaths, entryPath, hv, Bool.false_eq_true, if_false, exceptIsOk]
      constructor
      · intro h; cases h
      · intro h
        have h2 := h e (List.mem_cons_self e es)
        rw [hv] at h2
        cases h2
    | true =>
      simp only [collectPaths, entryPath, hv, if_true, exceptIsOk]
      cases hp : collectPaths es with
      | error x =>
        rw [hp] at ih
        simp only [exceptIsOk] at ih
        simp only [exceptIsOk]
        constructor
        · intro h; cases h
        · intro h
          exact absurd (ih.mpr (fun y hy => h y (List.mem_cons_of_mem _ hy))) (by simp)
      | ok ps =>
        rw [hp] at ih
        simp only [exceptIsOk] at ih
        simp only [exceptIsOk]
        constructor
        · intro _ y hy
          rcases List.mem_cons.mp hy with h | h
          · subst h; exact hv
          · exact ih.mp trivial y h
        · intro _; trivial

/-- Witness for `classify_paths_utf8_iff`: a single entry whose path byte
0xFF is not valid UTF-8 makes the whole collection fail. -/
theorem classify_paths_utf8_iff_witness :
    exceptIsOk (addTargets [⟨[0xFF], ⟨false, false, false, false, false, true, false, false,
      false, false, false, false⟩⟩]) = false := by
  cases hb : exceptIsOk (addTargets [⟨[0xFF], ⟨false, false, false, false, false, true, false,
      false, false, false, false, false⟩⟩]) with
  | false => rfl
  | true =>
    exact absurd ((classify_paths_utf8_iff _).mp hb ⟨[0xFF], ⟨false, false, false, false, false,
      true, false, false, false, false, false, false⟩⟩ (by decide)) (by decide)

/-- A commit store: the commits present (by id), the parent edges and a
commit timestamp used for newest-first ordering.  This models the object
store capability interface of §6 consumed by the divergence walker. -/
structure CommitStore where
  commits : List Nat
  parents : Nat → List Nat
  time : Nat → Nat

/-- Fuel-bounded reachability along parent edges: `reachB g n a b` holds
when `b` can be reached from `a` in at most `n` parent steps. -/
def reachB (g : CommitStore) : Nat → Nat → Nat → Bool
  | 0, a, b => a == b
  | n + 1, a, b => a == b || (g.parents a).any (fun p => reachB g n p b)

/-- Reachability with enough fuel to follow any simple path through the
store. -/
def reach (g : CommitStore) (a b : Nat) : Bool :=
  reachB g g.commits.length a b

/-- Common ancestors of two tips: the stored commits reachable from
both. -/
def commonAncestors (g : CommitStore) (a b : Nat) : List Nat :=
  g.commits.filter (fun x => reach g a x && reach g b x)

/-- The maximal common ancestors: common ancestors not reachable from any
other common ancestor ("the most recent commit reachable from both of two
tips", glossary). -/
def maximalCommonAncestors (g : CommitStore) (a b : Nat) : List Nat :=
  (commonAncestors g a b).filter
    (fun m => (commonAncestors g a b).all (fun x => x == m || !(reach g x m)))

/-- Error taxonomy of the store interface (§7): a missing commit is
`notFound`; two tips without a common ancestor give the distinct
`unrelatedHistory` error. -/
inductive StoreErr where
  | notFound
  | unrelatedHistory
deriving DecidableEq

/-- Modelled from the spec: the `merge_base(a, b)` capability of §6,
provided by the external object store (libgit2/gix) and not by code under
src/.  It returns a most recent commit reachable from both tips, fails with
`notFound` when a tip is missing from the store and with the distinct
`unrelatedHistory` error when no common ancestor exists (§4.1, §7). -/
def mergeBase (g : CommitStore) (a b : Nat) : Except StoreErr Nat :=
  if a ∈ g.commits ∧ b ∈ g.commits then
    match maximalCommonAncestors g a b with
    | [] => Except.error StoreErr.unrelatedHistory
    | m :: _ => Except.ok m
  else Except.error StoreErr.notFound

/-- Newest-first order on commits: later timestamp first, ties broken by
the larger id, so that distinct commits are strictly ordered. -/
def newestFirst (g : CommitStore) (x y : Nat) : Prop :=
  g.time y < g.time x ∨ (g.time y = g.time x ∧ y ≤ x)

instance (g : CommitStore) : DecidableRel (newestFirst g) := fun x y => by
  unfold newestFirst
  infer_instance

instance (g : CommitStore) : IsTotal Nat (newestFirst g) := by
  constructor
  intro x y
  rcases Nat.lt_trichotomy (g.time x) (g.time y) with h | h | h
  · exact Or.inr (Or.inl h)
  · rcases Nat.le_total y x with h2 | h2
    · exact Or.inl (Or.inr ⟨h.symm, h2⟩)
    · exact Or.inr (Or.inr ⟨h, h2⟩)
  · exact Or.inl (Or.inl h)

instance (g : CommitStore) : IsTrans Nat (newestFirst g) := by
  constructor
  intro x y z hxy hyz
  rcases hxy with h1 | ⟨h1, h1b⟩
  · rcases hyz with h2 | ⟨h2, _⟩
    · exact Or.inl (Nat.lt_trans h2 h1)
    · exact Or.inl (h2 ▸ h1)
  · rcases hyz with h2 | ⟨h2, h2b⟩
    · exact Or.inl (h1 ▸ h2)
    · exact Or.inr ⟨h2.trans h1, Nat.le_trans h2b h1b⟩

instance (g : CommitStore) : IsAntisymm Nat (newestFirst g) := by
  constructor
  intro x y hxy hyx
  rcases hxy with h1 | ⟨h1, h1b⟩
  · rcases hyx with h2 | ⟨h2, _⟩
    · exact absurd (Nat.lt_trans h1 h2) (Nat.lt_irrefl _)
    · exact absurd (h2 ▸ h1) (Nat.lt_irrefl _)
  · rcases hyx with h2 | ⟨h2, h2b⟩
    · exact absurd (h1 ▸ h2) (Nat.lt_irrefl _)
    · exact Nat.le_antisymm h2b h1b

/-- Embedding of the pruned revision walk collected by
`map_unique_commits` (src/git/repo.rs lines 111-124) and `walk`
(src/graph.rs lines 13-23): the commits reachable from `tip` but not from
`base`, enumerated newest first (the store-side iteration order of §6's
`walk(tip, pruned_from)`). -/
def walkList (g : CommitStore) (base tip : Nat) : List Nat :=
  List.insertionSort (newestFirst g)
    (g.commits.filter (fun x => reach g tip x && !(reach g base x)))

/-- Embedding of `Repo::commits_ahead_behind` (src/git/repo.rs lines
426-436) and `Graph::ahead_behind` (src/graph.rs lines 30-43): one merge
base, then two walks pruned at it. -/
def commitsAheadBehind (g : CommitStore) (localTip remoteTip : Nat) :
    Except StoreErr (List Nat × List Nat) :=
  match mergeBase g localTip remoteTip with
  | Except.error e => Except.error e
  | Except.ok mb => Except.ok (walkList g mb localTip, walkList g mb remoteTip)

/-- A linear three-commit store 0 ← 1 and 0 ← 2 (two branches off 0). -/
def forkStore : CommitStore :=
  ⟨[0, 1, 2], fun n => if n == 1 then [0] else if n == 2 then [0] else [], fun n => n⟩

/-- A criss-cross store: 3 and 2 are both merges of the unrelated roots 0
and 1. -/
def crissCross : CommitStore :=
  ⟨[0, 1, 2, 3], fun n => if n == 2 then [0, 1] else if n == 3 then [0, 1] else [], fun n => n⟩

example : mergeBase forkStore 1 2 = Except.ok 0 := by decide
example : commitsAheadBehind forkStore 1 2 = Except.ok ([1], [2]) := by decide
example : mergeBase crissCross 2 3 = Except.ok 0 := by decide
example : commitsAheadBehind crissCross 2 3 = Except.ok ([2, 1], [3, 1]) := by decide
example : commitsAheadBehind forkStore 1 1 = Except.ok ([], []) := by decide

/-- Every commit reaches itself, with any amount of fuel. -/
theorem reachB_self (g : CommitStore) (n a : Nat) : reachB g n a a = true := by
  cases n <;> simp [reachB]

/-- Every commit reaches itself. -/
theorem reach_self (g : CommitStore) (a : Nat) : reach g a a = true :=
  reachB_self g _ a

/-- Splits a true Boolean conjunction. -/
theorem and_true_split {a b : Bool} (h : (a && b) = true) : a = true ∧ b = true := by
  cases a
  · cases h
  · cases b
    · cases h
    · exact ⟨rfl, rfl⟩

/-- Splits a true Boolean disjunction. -/
theorem or_true_split {a b : Bool} (h : (a || b) = true) : a = true ∨ b = true := by
  cases a
  · cases b
    · cases h
    · exact Or.inr rfl
  · exact Or.inl rfl

/-- A true Boolean negation means the operand is false. -/
theorem not_true_split {b : Bool} (h : (!b) = true) : b = false := by
  cases b
  · rfl
  · cases h

/-- A duplicate-free list filters to the singleton of the unique element
satisfying the predicate. -/
theorem filter_eq_singleton {l : List Nat} {p : Nat → Bool} {a : Nat}
    (hnd : l.Nodup) (ha : a ∈ l) (hp : ∀ x ∈ l, p x = true ↔ x = a) :
    l.filter p = [a] := by
  induction l with
  | nil => cases ha
  | cons y ys ih =>
    rcases List.nodup_cons.mp hnd with ⟨hy, hys⟩
    by_cases hya : y = a
    · subst hya
      have hpy : p y = true := (hp y (List.mem_cons_self y ys)).mpr rfl
      rw [List.filter_cons_of_pos hpy]
      have hnil : ys.filter p = [] := by
        apply List.filter_eq_nil_iff.mpr
        intro x hx hpx
        exact hy ((hp x (List.mem_cons_of_mem _ hx)).mp hpx ▸ hx)
      rw [hnil]
    · have hpy : p y = false := by
        cases hpv : p y with
        | false => rfl
        | true => exact absurd ((hp y (List.mem_cons_self y ys)).mp hpv) hya
      rw [List.filter_cons_of_neg (by simp [hpy])]
      have hays : a ∈ ys := by
        rcases List.mem_cons.mp ha with h | h
        · exact absurd h.symm hya
        · exact h
      exact ih hys hays (fun x hx => hp x (List.mem_cons_of_mem _ hx))

/-- C5: for two stored tips without a common ancestor, `ahead_behind` fails
with the `unrelatedHistory` error, which is distinct from `notFound`, and
in particular never returns a (vacuously empty) pair of divergence
lists. -/
theorem ahead_behind_unrelated : ∀ (g : CommitStore) (a b : Nat),
    a ∈ g.commits → b ∈ g.commits →
    (∀ x ∈ g.commits, (reach g a x && reach g b x) = false) →
    commitsAheadBehind g a b = Except.error StoreErr.unrelatedHistory ∧
    StoreErr.unrelatedHistory ≠ StoreErr.notFound ∧
    ∀ ah bh, commitsAheadBehind g a b ≠ Except.ok (ah, bh) := by
  intro g a b ha hb hno
  have hca : commonAncestors g a b = [] := by
    apply List.filter_eq_nil_iff.mpr
    intro x hx hpx
    rw [hno x hx] at hpx
    cases hpx
  have hmax : maximalCommonAncestors g a b = [] := by
    unfold maximalCommonAncestors
    rw [hca]
    rfl
  have hmb : mergeBase g a b = Except.error StoreErr.unrelatedHistory := by
    unfold mergeBase
    rw [if_pos ⟨ha, hb⟩, hmax]
  refine ⟨?_, by decide, ?_⟩
  · unfold commitsAheadBehind
    rw [hmb]
  · intro ah bh h
    unfold commitsAheadBehind at h
    rw [hmb] at h
    cases h

/-- Witness for `ahead_behind_unrelated` on a store of two root commits. -/
theorem ahead_behind_unrelated_witness :
    commitsAheadBehind ⟨[0, 1], fun _ => [], fun n => n⟩ 0 1 =
      Except.error StoreErr.unrelatedHistory :=
  (ahead_behind_unrelated ⟨[0, 1], fun _ => [], fun n => n⟩ 0 1 (by decide) (by decide)
    (by decide)).1

/-- C6: for a stored commit `a` of a well-formed (duplicate-free, acyclic)
store, `ahead_behind(a, a)` succeeds with both divergence lists empty: the
merge base of `a` with itself is `a`, and both pruned walks are empty. -/
theorem ahead_behind_self_empty : ∀ (g : CommitStore) (a : Nat),
    g.commits.Nodup → a ∈ g.commits →
    (∀ x ∈ g.commits, ∀ y ∈ g.commits, reach g x y = true → reach g y x = true → x = y) →
    commitsAheadBehind g a a = Except.ok ([], []) := by
  intro g a hnd ha hanti
  have hcand : (commonAncestors g a a).Nodup := List.Nodup.filter _ hnd
  have hamem : a ∈ commonAncestors g a a :=
    List.mem_filter.mpr ⟨ha, by simp [reach_self]⟩
  have hmax : maximalCommonAncestors g a a = [a] := by
    unfold maximalCommonAncestors
    apply filter_eq_singleton hcand hamem
    intro x hx
    have hrx : reach g a x = true := (and_true_split (List.mem_filter.mp hx).2).1
    constructor
    · intro hall
      have h2 := List.all_eq_true.mp hall a hamem
      rcases or_true_split h2 with h3 | h3
      · exact (eq_of_beq h3).symm
      · rw [hrx] at h3
        cases h3
    · intro hxa
      apply List.all_eq_true.mpr
      intro z hz
      rcases List.mem_filter.mp hz with ⟨hzc, hzp⟩
      have hraz : reach g a z = true := (and_true_split hzp).1
      cases hv : reach g z x with
      | false => simp [hv]
      | true =>
        have hza : z = a := hanti z hzc a ha (hxa ▸ hv) hraz
        simp [hza, hxa]
  have hmb : mergeBase g a a = Except.ok a := by
    unfold mergeBase
    rw [if_pos ⟨ha, ha⟩, hmax]
  have hwalk : walkList g a a = [] := by
    unfold walkList
    have hfil : g.commits.filter (fun x => reach g a x && !(reach g a x)) = [] :=
      List.filter_eq_nil_iff.mpr (fun x _ hpx => by simp at hpx)
    rw [hfil]
    rfl
  unfold commitsAheadBehind
  rw [hmb]
  simp [hwalk]

/-- Witness for `ahead_behind_self_empty` on a concrete store. -/
theorem ahead_behind_self_empty_witness :
    commitsAheadBehind forkStore 1 1 = Except.ok ([], []) :=
  ahead_behind_self_empty forkStore 1 (by decide) (by decide) (by decide)

/-- C7 counterexample: in the criss-cross store the tips 2 and 3 have a
common ancestor, yet commit 1 (the maximal common ancestor not chosen as
merge base) appears in both the ahead and the behind list, so their
intersection is not empty. -/
theorem ahead_behind_crisscross_overlap :
    (reach crissCross 2 0 && reach crissCross 3 0) = true ∧
    commitsAheadBehind crissCross 2 3 = Except.ok ([2, 1], [3, 1]) ∧
    1 ∈ ([2, 1] : List Nat) ∧ 1 ∈ ([3, 1] : List Nat) := by
  decide

/-- C7 amended: every ahead commit is reachable from `a` and not from the
chosen merge base, symmetrically for behind; and the two lists are disjoint
provided the chosen merge base dominates every common ancestor (as with a
unique merge base) — in criss-cross histories with several maximal common
ancestors the lists may overlap. -/
theorem ahead_behind_reachability : ∀ (g : CommitStore) (a b mb : Nat) (ah bh : List Nat),
    mergeBase g a b = Except.ok mb →
    commitsAheadBehind g a b = Except.ok (ah, bh) →
    (∀ x ∈ ah, reach g a x = true ∧ reach g mb x = false) ∧
    (∀ x ∈ bh, reach g b x = true ∧ reach g mb x = false) ∧
    ((∀ x ∈ g.commits, reach g a x = true → reach g b x = true → reach g mb x = true) →
      ∀ x ∈ ah, x ∉ bh) := by
  intro g a b mb ah bh hmb hab
  unfold commitsAheadBehind at hab
  rw [hmb] at hab
  injection hab with h
  have h1 : walkList g mb a = ah := congrArg Prod.fst h
  have h2 : walkList g mb b = bh := congrArg Prod.snd h
  subst h1
  subst h2
  refine ⟨?_, ?_, ?_⟩
  · intro x hx
    have hx2 : x ∈ g.commits.filter (fun y => reach g a y && !(reach g mb y)) := by
      simpa [walkList] using hx
    rcases and_true_split (List.mem_filter.mp hx2).2 with ⟨hp1, hp2⟩
    exact ⟨hp1, not_true_split hp2⟩
  · intro x hx
    have hx2 : x ∈ g.commits.filter (fun y => reach g b y && !(reach g mb y)) := by
      simpa [walkList] using hx
    rcases and_true_split (List.mem_filter.mp hx2).2 with ⟨hp1, hp2⟩
    exact ⟨hp1, not_true_split hp2⟩
  · intro hdom x hx hxb
    have hx2 : x ∈ g.commits.filter (fun y => reach g a y && !(reach g mb y)) := by
      simpa [walkList] using hx
    have hxb2 : x ∈ g.commits.filter (fun y => reach g b y && !(reach g mb y)) := by
      simpa [walkList] using hxb
    rcases List.mem_filter.mp hx2 with ⟨hxc, hpa⟩
    rcases and_true_split hpa with ⟨hra, hnmb⟩
    have hrb : reach g b x = true := (and_true_split (List.mem_filter.mp hxb2).2).1
    have hmbx := hdom x hxc hra hrb
    rw [hmbx] at hnmb
    cases hnmb

/-- Witness for `ahead_behind_reachability` on the fork store. -/
theorem ahead_behind_reachability_witness :
    reach forkStore 1 1 = true ∧ reach forkStore 0 1 = false :=
  (ahead_behind_reachability forkStore 1 2 0 [1] [2] (by decide) (by decide)).1 1 (by decide)

/-- Strict lexicographic order on path byte strings, the order in which
the underlying store lists status entries. -/
def pathLtB : List Nat → List Nat → Bool
  | [], [] => false
  | [], _ :: _ => true
  | _ :: _, [] => false
  | x :: xs, y :: ys => decide (x < y) || (x == y && pathLtB xs ys)

/-- The strict path order is asymmetric. -/
theorem pathLtB_asymm : ∀ (x y : List Nat), pathLtB x y = true → pathLtB y x = true → False := by
  intro x
  induction x with
  | nil =>
    intro y h1 h2
    cases y with
    | nil => cases h1
    | cons b bs => cases h2
  | cons a as ih =>
    intro y h1 h2
    cases y with
    | nil => cases h1
    | cons b bs =>
      rcases or_true_split h1 with hl | hr
      · rcases or_true_split h2 with hl2 | hr2
        · exact absurd (of_decide_eq_true hl2) (Nat.lt_asymm (of_decide_eq_true hl))
        · rcases and_true_split hr2 with ⟨hba, _⟩
          have hlt : a < b := of_decide_eq_true hl
          rw [eq_of_beq hba] at hlt
          exact Nat.lt_irrefl a hlt
      · rcases and_true_split hr with ⟨hab, hrec⟩
        rcases or_true_split h2 with hl2 | hr2
        · have hlt : b < a := of_decide_eq_true hl2
          rw [eq_of_beq hab] at hlt
          exact Nat.lt_irrefl b hlt
        · rcases and_true_split hr2 with ⟨_, hrec2⟩
          exact ih bs hrec hrec2

/-- The classified output of the status pipeline: each non-CURRENT entry's
path together with its classification, in the produced order. -/
def classifyList (rs : List StatusEntryRaw) : List (List Nat × EntryStatus) :=
  (statusEntries rs).map (fun e => (e.path, entryStatus e.flags))

/-- A conforming run of `classify()` against a fixed store: an output list
with exactly the classified entries, presented in the strict path order the
underlying store guarantees (git2 lists status entries sorted by path).
Every rerun of the pipeline on the same state satisfies this
characterization. -/
def ClassifyRun (rs : List StatusEntryRaw) (out : List (List Nat × EntryStatus)) : Prop :=
  out.Perm (classifyList rs) ∧ List.Sorted (fun u v => pathLtB u.1 v.1 = true) out

/-- A conforming run of the pruned walk `walk(tip, pruned_from)` of §6:
duplicate-free, containing exactly the stored commits reachable from `tip`
and not from `base`, newest first. -/
def WalkRun (g : CommitStore) (base tip : Nat) (l : List Nat) : Prop :=
  l.Nodup ∧ (∀ x ∈ l, x ∈ g.commits) ∧
  (∀ x ∈ g.commits, (x ∈ l ↔ (reach g tip x && !(reach g base x)) = true)) ∧
  List.Sorted (newestFirst g) l

/-- A conforming run of `ahead_behind` against a fixed store: one merge
base and one conforming walk on each side. -/
def AheadBehindRun (g : CommitStore) (a b : Nat) (out : List Nat × List Nat) : Prop :=
  ∃ mb, mergeBase g a b = Except.ok mb ∧ WalkRun g mb a out.1 ∧ WalkRun g mb b out.2

/-- Two conforming walks over the same store and tips are identical. -/
theorem walkRun_unique {g : CommitStore} {base tip : Nat} {l1 l2 : List Nat}
    (h1 : WalkRun g base tip l1) (h2 : WalkRun g base tip l2) : l1 = l2 := by
  rcases h1 with ⟨nd1, sub1, mem1, s1⟩
  rcases h2 with ⟨nd2, sub2, mem2, s2⟩
  have hmem : ∀ x, x ∈ l1 ↔ x ∈ l2 := by
    intro x
    constructor
    · intro hx
      exact (mem2 x (sub1 x hx)).mpr ((mem1 x (sub1 x hx)).mp hx)
    · intro hx
      exact (mem1 x (sub2 x hx)).mpr ((mem2 x (sub2 x hx)).mp hx)
  exact List.eq_of_perm_of_sorted ((List.perm_ext_iff_of_nodup nd1 nd2).mpr hmem) s1 s2

/-- C9: determinism against a fixed repository state — any two conforming
runs of `ahead_behind` produce the identical pair of lists, and any two
conforming runs of `classify()` produce the identical entry list. -/
theorem runs_deterministic :
    (∀ (g : CommitStore) (a b : Nat) (o1 o2 : List Nat × List Nat),
      AheadBehindRun g a b o1 → AheadBehindRun g a b o2 → o1 = o2) ∧
    (∀ (rs : List StatusEntryRaw) (o1 o2 : List (List Nat × EntryStatus)),
      ClassifyRun rs o1 → ClassifyRun rs o2 → o1 = o2) := by
  constructor
  · intro g a b o1 o2 h1 h2
    rcases h1 with ⟨mb1, hmb1, hw1a, hw1b⟩
    rcases h2 with ⟨mb2, hmb2, hw2a, hw2b⟩
    rw [hmb1] at hmb2
    injection hmb2 with hmbe
    subst hmbe
    exact Prod.ext (walkRun_unique hw1a hw2a) (walkRun_unique hw1b hw2b)
  · intro rs o1 o2 h1 h2
    rcases h1 with ⟨p1, s1⟩
    rcases h2 with ⟨p2, s2⟩
    haveI : IsAntisymm (List Nat × EntryStatus) (fun u v => pathLtB u.1 v.1 = true) :=
      ⟨fun u v hu hv => (pathLtB_asymm _ _ hu hv).elim⟩
    exact List.eq_of_perm_of_sorted (p1.trans p2.symm) s1 s2

/-- Witness for `runs_deterministic`: conforming runs on a concrete store
and a concrete status list, compared with themselves. -/
theorem runs_deterministic_witness :
    (([1], [2]) : List Nat × List Nat) = ([1], [2]) ∧
    ([([97], EntryStatus.workTree Change.new)] : List (List Nat × EntryStatus)) =
      [([97], EntryStatus.workTree Change.new)] :=
  ⟨runs_deterministic.1 forkStore 1 2 ([1], [2]) ([1], [2])
      ⟨0, by decide, ⟨by decide, by decide, by decide, by decide⟩,
        ⟨by decide, by decide, by decide, by decide⟩⟩
      ⟨0, by decide, ⟨by decide, by decide, by decide, by decide⟩,
        ⟨by decide, by decide, by decide, by decide⟩⟩,
    runs_deterministic.2
      [⟨[97], ⟨false, false, false, false, false, true, false, false, false, false, false,
        false⟩⟩]
      [([97], EntryStatus.workTree Change.new)] [([97], EntryStatus.workTree Change.new)]
      ⟨by decide, by decide⟩ ⟨by decide, by decide⟩⟩

/-- C10: with an expected oid supplied but an empty advertised-update list,
the guard accepts: `any` is false but `all` is vacuously true, so the
rejection condition is false. -/
theorem push_guard_empty_updates_ok : ∀ x : Oid,
    pushNegotiation (some x) [] = Except.ok () := by
  intro x
  rfl

end Src
